import Mathlib

/-!
Verification development for the GLASS example-notebook pipeline
(shell-by-shell lensing accumulation, catalogue-to-pixel reduction,
and power-spectrum debiasing), shallowly embedded in Lean 4.

Sources embedded here:
* the galaxy-shear simulation loop and analysis cell of the
  `plot_s4_galaxies` notebook (scatter-add of galaxy counts and shear
  sums into HEALPix maps; normalisation by the expected count `nbar`;
  shot-noise vector `nl`; mixing matrix `mm`; convergence-to-shear
  power factor `fl`);
* the 3D cube binning of the `plot_density` notebook
  (`np.searchsorted(zcub[1:], [z1, z2, z3])`);
* the iterative convergence accumulator (`MultiPlaneConvergence`) and
  `shear_from_convergence`, which live in the external GLASS library:
  those are modelled from the specification and clearly marked.

Machine reals of the notebooks are embedded as `ℚ` (exact arithmetic)
where the computation is rational, and as `ℝ` where the source uses
`π` or square roots.
-/

set_option maxHeartbeats 1000000

namespace GlassNb

/-! ### Catalogue-to-pixel reduction (simulation cell of `plot_s4_galaxies`)

The source keeps two running maps over `npix` pixels,
`num = np.zeros(npix)` and `she = np.zeros(npix, dtype=complex)`, and
per batch of galaxies executes

    s = np.argsort(gal_pix)
    pix, start, count = np.unique(gal_pix[s], return_index=True, return_counts=True)
    num[pix] += count
    she[pix] += list(map(np.sum, np.split(gal_she[s], start[1:])))

i.e. sort the points by pixel index, split the sorted array into runs
of equal pixel index, and scatter-add each run's length into `num` and
each run's value sum into `she`.  Pixel maps are embedded as total
functions from pixel index; values as an arbitrary additive commutative
monoid `M` (the source instantiates `M := ℂ`). -/

abbrev Pix := Nat

/-- The pair of running maps `(num, she)` of the simulation cell. -/
@[ext] structure PixelAggregate (M : Type) where
  num : Pix → Nat
  she : Pix → M

/-- `num = np.zeros(npix)`, `she = np.zeros(npix, dtype=complex)`. -/
def PixelAggregate.empty (M : Type) [AddCommMonoid M] : PixelAggregate M :=
  ⟨fun _ => 0, fun _ => 0⟩

/-- Scatter-add one group: `num[p] += c`, `she[p] += s`. -/
def addGroup {M : Type} [AddCommMonoid M] (st : PixelAggregate M) (p : Pix)
    (c : Nat) (s : M) : PixelAggregate M :=
  { num := fun r => if r = p then st.num r + c else st.num r
    she := fun r => if r = p then st.she r + s else st.she r }

/-- Add a single point to its bin (the naive one-point-at-a-time scan). -/
def addPoint {M : Type} [AddCommMonoid M] (st : PixelAggregate M)
    (q : Pix × M) : PixelAggregate M :=
  addGroup st q.1 1 q.2

/-- Naive linear scan: add each point of the batch to its bin in order. -/
def linearScan {M : Type} [AddCommMonoid M] (st : PixelAggregate M)
    (batch : List (Pix × M)) : PixelAggregate M :=
  batch.foldl addPoint st

/-- Split a sorted point list into maximal runs of equal pixel index and
scatter-add each run's `(length, value sum)` into the aggregate; this is
the `np.unique`/`np.split` part of the source. -/
def scatterRuns {M : Type} [AddCommMonoid M] :
    List (Pix × M) → PixelAggregate M → PixelAggregate M
  | [], st => st
  | (p, v) :: rest, st =>
      scatterRuns (rest.dropWhile (fun q => q.1 == p))
        (addGroup st p ((rest.takeWhile (fun q => q.1 == p)).length + 1)
          (v + ((rest.takeWhile (fun q => q.1 == p)).map Prod.snd).sum))
termination_by l _ => l.length
decreasing_by
  exact Nat.lt_succ_of_le
    (List.Sublist.length_le (List.IsSuffix.sublist (List.dropWhile_suffix _)))

/-- One batch of the source's reduction: `argsort` the points by pixel
index, then group-and-scatter the sorted list. -/
def reduceBatch {M : Type} [AddCommMonoid M] (st : PixelAggregate M)
    (batch : List (Pix × M)) : PixelAggregate M :=
  scatterRuns (batch.mergeSort (fun a b => decide (a.1 ≤ b.1))) st

/-- Reduce a whole stream of per-shell batches, starting from zero maps. -/
def reduceStream (M : Type) [AddCommMonoid M]
    (batches : List (List (Pix × M))) : PixelAggregate M :=
  batches.foldl reduceBatch (PixelAggregate.empty M)

/-- Occurrences of pixel `p` in a batch (the bin's count contribution). -/
def binCount {M : Type} (batch : List (Pix × M)) (p : Pix) : Nat :=
  batch.countP (fun q => q.1 == p)

/-- Sum of the values of a batch's points falling in pixel `p`. -/
def binSum {M : Type} [AddCommMonoid M] (batch : List (Pix × M)) (p : Pix) : M :=
  ((batch.filter (fun q => q.1 == p)).map Prod.snd).sum

/-! ### Cube binning (simulation cell of `plot_density`)

The source bins each Cartesian coordinate with
`np.searchsorted(zcub[1:], v)` (default `side='left'`), where
`zcub = np.linspace(-zb[-1], zb[-1], 21)`, and increments
`cube[i, j, k] += c` on a `(20, 20, 20)` cube. -/

/-- `np.searchsorted(a, v)` with the default `side='left'` on a sorted
array: the insertion index, i.e. the number of entries strictly below
`v`. -/
def searchsortedLeft {α : Type} [LinearOrder α] (a : List α) (v : α) : Nat :=
  a.countP (fun x => decide (x < v))

/-- Bin index assignment the spec's sentence describes (half-open
`coordinate < upper_edge` binning, a point on an upper edge going to the
next bin): this is `np.searchsorted` with `side='right'`, counting the
entries `≤ v`.  Stated from the spec's words for comparison with
`searchsortedLeft`, which is what the source calls. -/
def specBinIndex {α : Type} [LinearOrder α] (a : List α) (v : α) : Nat :=
  a.countP (fun x => decide (x ≤ v))

/-- `np.deg2rad`. -/
noncomputable def deg2rad (x : ℝ) : ℝ := x * Real.pi / 180

/-- `zcub = np.linspace(-zb[-1], zb[-1], 21)`: edge `i` of the cube grid,
for `zmax = zb[-1]` (20 equal steps from `-zmax` to `zmax`). -/
noncomputable def zcub (zmax : ℝ) (i : Nat) : ℝ := -zmax + i * (2 * zmax / 20)

/-- `zcub[1:]`: the 20 upper bin edges passed to `np.searchsorted`. -/
noncomputable def cubeEdges (zmax : ℝ) : List ℝ :=
  (List.range 20).map (fun j => zcub zmax (j + 1))

/-- `z1 = gal_z*np.cos(np.deg2rad(gal_lon))*np.cos(np.deg2rad(gal_lat))`. -/
noncomputable def galCoord1 (gz lon lat : ℝ) : ℝ :=
  gz * Real.cos (deg2rad lon) * Real.cos (deg2rad lat)

/-- `z2 = gal_z*np.sin(np.deg2rad(gal_lon))*np.cos(np.deg2rad(gal_lat))`. -/
noncomputable def galCoord2 (gz lon lat : ℝ) : ℝ :=
  gz * Real.sin (deg2rad lon) * Real.cos (deg2rad lat)

/-- `z3 = gal_z*np.sin(np.deg2rad(gal_lat))`. -/
noncomputable def galCoord3 (gz lat : ℝ) : ℝ :=
  gz * Real.sin (deg2rad lat)

/-! ### Convergence accumulator (`glass.lensing.MultiPlaneConvergence`)

The notebooks call `convergence.add_window(delta_i, ws[i])` and read
`convergence.kappa`; the accumulator itself lives in the external GLASS
library, so it is modelled here from the specification. -/

/-- Modelled from the spec: a `ShellWindow` as the accumulator consumes
it — its effective comoving distance `x` and its scalar lens weight `w`
(the spec's per-shell normalisation).  The weight curve itself is out of
scope: `add_window` only uses the derived scalar weight. -/
structure Shell where
  x : ℚ
  w : ℚ

/-- Modelled from the spec: the `ConvergenceState` owned by the
accumulator — the incrementally-maintainable running statistics of the
discretized Born line-of-sight integral.  With per-shell lensing
efficiency `(x_k - x_j)/x_k` for lens `j` and current source plane `k`,
the cumulative convergence is a function of two distance-weighted running
totals: `s0 = Σ_j w_j δ_j` and `s1 = Σ_j w_j δ_j x_j`, plus the current
source distance `xs`. -/
structure ConvAcc where
  s0 : Pix → ℚ
  s1 : Pix → ℚ
  xs : ℚ

/-- The accumulator's state before any shell was added. -/
def ConvAcc.init : ConvAcc := ⟨fun _ => 0, fun _ => 0, 0⟩

/-- Modelled from the spec: `add_window(contrast_map, shell)` — advance
the running statistics by exactly one shell (O(pixels) work, no
recomputation over past shells). -/
def addWindow (st : ConvAcc) (delta : Pix → ℚ) (sh : Shell) : ConvAcc :=
  { s0 := fun p => st.s0 p + sh.w * delta p
    s1 := fun p => st.s1 p + sh.w * delta p * sh.x
    xs := sh.x }

/-- Modelled from the spec: the `kappa` read accessor — the cumulative
convergence map reconstructed from the running statistics. -/
def ConvAcc.kappa (st : ConvAcc) : Pix → ℚ :=
  fun p => st.s0 p - st.s1 p / st.xs

/-- Modelled from the spec: the lensing-efficiency weight of lens plane
`j` for sources on plane `k`, from the ratio of comoving distances. -/
def lensEfficiency (xj xk : ℚ) : ℚ := (xk - xj) / xk

/-- Fold step for a stream of `(shell, contrast map)` pairs. -/
def addStep (st : ConvAcc) (sd : Shell × (Pix → ℚ)) : ConvAcc :=
  addWindow st sd.2 sd.1

/-- Run the incremental accumulator over a whole shell sequence. -/
def runAcc (shells : List (Shell × (Pix → ℚ))) : ConvAcc :=
  shells.foldl addStep ConvAcc.init

/-- Modelled from the spec: the direct O(shells²-over-all-prefixes)
recomputation of the discretized Born integral from scratch — every seen
shell re-weighted by its lensing efficiency for the current (last)
source plane, then summed. -/
def bornDirect (shells : List (Shell × (Pix → ℚ))) : Pix → ℚ :=
  match shells.getLast? with
  | none => fun _ => 0
  | some (shk, _) =>
      fun p =>
        (shells.map (fun sd => sd.1.w * sd.2 p * lensEfficiency sd.1.x shk.x)).sum

/-- The three-shell scenario of the spec's concrete test: windows of
equal weight `1.0` at distances `x₁ < x₂ < x₃`, constant contrast maps
`0.1`, `0.2`, `0.3`. -/
def scenarioShells (x₁ x₂ x₃ : ℚ) : List (Shell × (Pix → ℚ)) :=
  [(⟨x₁, 1⟩, fun _ => 1/10), (⟨x₂, 1⟩, fun _ => 2/10), (⟨x₃, 1⟩, fun _ => 3/10)]

/-- A small concrete shell stream used to witness the accumulator
equivalence. -/
def demoShells : List (Shell × (Pix → ℚ)) :=
  [(⟨1, 1⟩, fun _ => 1), (⟨2, 1⟩, fun _ => 2)]

/-! ### Analysis cell of `plot_s4_galaxies`: normalisation, shot noise,
mixing matrix, shear factor, debiasing -/

/-- `nside = lmax = 256`. -/
def nside : Nat := 256

/-- `npix = 12*nside**2`. -/
def npix : Nat := 12 * nside ^ 2

/-- `n_arcmin2 = 0.01`: galaxy number density per arcmin². -/
noncomputable def n_arcmin2 : ℝ := 1 / 100

/-- `sigma_e = 0.01`: per-component ellipticity standard deviation. -/
noncomputable def sigma_e : ℝ := 1 / 100

/-- `ARCMIN2_SPHERE` from `glass.core.constants` (external): the full
sphere expressed in arcmin², `4π·(10800/π)² = 466560000/π`. -/
noncomputable def arcmin2Sphere : ℝ := 466560000 / Real.pi

/-- `nbar = ARCMIN2_SPHERE/npix*n_arcmin2`: expected galaxies per pixel. -/
noncomputable def nbar : ℝ := arcmin2Sphere / npix * n_arcmin2

/-- `num /= nbar` read at pixel `p`: the source normalises the count map
by the constant expected count per pixel, never by the per-bin
accumulated count. -/
noncomputable def normalizedNum (num : Pix → Nat) (p : Pix) : ℝ :=
  (num p : ℝ) / nbar

/-- `she /= nbar` read at pixel `p` (shear values embedded as `ℂ`). -/
noncomputable def normalizedShe (she : Pix → ℂ) (p : Pix) : ℂ :=
  she p / (nbar : ℂ)

/-- The per-bin normalized read the spec's error contract describes:
reading a bin with zero accumulated count is a signaled
division-by-zero condition (`none`), with the caller choosing the
masking policy.  Stated from the spec's words for comparison with the
source's `normalizedNum`. -/
noncomputable def specEmptyBinRead (count : Nat) (val : ℝ) : Option ℝ :=
  if count = 0 then none else some (val / count)

/-- `nl = 4*np.pi/(nbar*npix)*sigma_e**2 * (l >= 2)`: the shot-noise
estimate of the analysis cell. -/
noncomputable def nl (l : Nat) : ℝ :=
  4 * Real.pi / (nbar * npix) * sigma_e ^ 2 * (if 2 ≤ l then 1 else 0)

/-- `mm = (1 - 1/(nbar*npix))*np.eye(lmax+1) + (l+1/2)/(nbar*npix)`:
entry `(i, j)` of the mixing matrix before zeroing (the row vector
`(l+1/2)/(nbar*npix)` broadcasts along `j`). -/
noncomputable def mm0 (i j : Nat) : ℝ :=
  (1 - 1 / (nbar * npix)) * (if i = j then 1 else 0) +
    ((j : ℝ) + 1 / 2) / (nbar * npix)

/-- After `mm[:2, :] = 0`. -/
noncomputable def mm1 (i j : Nat) : ℝ := if i < 2 then 0 else mm0 i j

/-- After the subsequent `mm[:, :2] = 0`. -/
noncomputable def mm (i j : Nat) : ℝ := if j < 2 then 0 else mm1 i j

/-- `fl = (l+2)*(l+1)*l*(l-1)/np.clip(l**2*(l+1)**2, 1, None)`: the
factor transforming the convergence power spectrum to shear
(`np.clip(x, 1, None)` is `max x 1`). -/
def fl (l : Nat) : ℚ :=
  (((l : ℚ) + 2) * ((l : ℚ) + 1) * (l : ℚ) * ((l : ℚ) - 1)) /
    max ((l : ℚ) ^ 2 * ((l : ℚ) + 1) ^ 2) 1

/-- Modelled from the spec: the per-mode amplitude factor of
`glass.lensing.shear_from_convergence` (external library),
`f(ℓ) = sqrt[(ℓ+2)(ℓ+1)ℓ(ℓ-1)] / [ℓ(ℓ+1)]`. -/
noncomputable def shearFactor (l : Nat) : ℝ :=
  Real.sqrt (((l : ℝ) + 2) * ((l : ℝ) + 1) * (l : ℝ) * ((l : ℝ) - 1)) /
    ((l : ℝ) * ((l : ℝ) + 1))

/-- Modelled from the spec: `shear_from_convergence` in harmonic space —
scale each spherical-harmonic mode of the convergence map by the fixed
per-mode factor. -/
noncomputable def shearAlm (alm : Nat → ℝ) : Nat → ℝ :=
  fun l => shearFactor l * alm l

/-- The noise-subtraction half of the debiasing step: `cls[1] - nl`
elementwise, as the spec's `debias` contract describes it. -/
noncomputable def debiasObserved {n : Nat} (obs noise : Fin n → ℝ) : Fin n → ℝ :=
  fun l => obs l - noise l

/-- The mixing half of the debiasing step: the matrix-vector product
`mm @ theory` applied to the (pixel-window-corrected) theory spectrum. -/
noncomputable def mixTheory {n : Nat} (m : Matrix (Fin n) (Fin n) ℝ) (th : Fin n → ℝ) :
    Fin n → ℝ :=
  m.mulVec th

end GlassNb

namespace GlassNb

/-! #### Basic lemmas on the reduction -/

theorem length_dropWhile_le {α : Type} (p : α → Bool) (l : List α) :
    (l.dropWhile p).length ≤ l.length :=
  List.Sublist.length_le (List.IsSuffix.sublist (List.dropWhile_suffix p))

/-- Closed form of the naive scan: each bin's count grows by the batch's
occurrence count of that pixel. -/
theorem linearScan_num {M : Type} [AddCommMonoid M] (batch : List (Pix × M))
    (st : PixelAggregate M) (p : Pix) :
    (linearScan st batch).num p = st.num p + binCount batch p := by
  induction batch generalizing st with
  | nil => simp [linearScan, binCount]
  | cons q rest ih =>
      simp only [linearScan, List.foldl_cons] at *
      rw [ih]
      simp only [binCount, List.countP_cons, addPoint, addGroup]
      by_cases h : p = q.1
      · subst h
        simp [add_comm, add_left_comm, add_assoc]
      · have : ¬(q.1 == p) = true := by
          simpa using fun hq => h hq.symm
        simp [h, this]

/-- Closed form of the naive scan: each bin's value sum grows by the sum of
the batch's values in that pixel. -/
theorem linearScan_she {M : Type} [AddCommMonoid M] (batch : List (Pix × M))
    (st : PixelAggregate M) (p : Pix) :
    (linearScan st batch).she p = st.she p + binSum batch p := by
  induction batch generalizing st with
  | nil => simp [linearScan, binSum]
  | cons q rest ih =>
      simp only [linearScan, List.foldl_cons] at *
      rw [ih]
      simp only [binSum, addPoint, addGroup]
      by_cases h : p = q.1
      · subst h
        simp [List.filter_cons, add_comm, add_left_comm, add_assoc]
      · have : ¬(q.1 == p) = true := by
          simpa using fun hq => h hq.symm
        simp [List.filter_cons, h, this]

theorem addGroup_zero {M : Type} [AddCommMonoid M] (st : PixelAggregate M)
    (p : Pix) : addGroup st p 0 (0 : M) = st := by
  ext r
  · simp [addGroup]
  · simp [addGroup]

theorem addGroup_addGroup {M : Type} [AddCommMonoid M] (st : PixelAggregate M)
    (p : Pix) (c₁ c₂ : Nat) (s₁ s₂ : M) :
    addGroup (addGroup st p c₁ s₁) p c₂ s₂ = addGroup st p (c₁ + c₂) (s₁ + s₂) := by
  ext r
  · by_cases h : r = p <;> simp [addGroup, h, add_assoc]
  · by_cases h : r = p <;> simp [addGroup, h, add_assoc]

theorem linearScan_append {M : Type} [AddCommMonoid M] (st : PixelAggregate M)
    (l₁ l₂ : List (Pix × M)) :
    linearScan st (l₁ ++ l₂) = linearScan (linearScan st l₁) l₂ :=
  List.foldl_append _ _ _ _

/-- Scanning a list of points that all share pixel index `p` adds the
list's length and value sum to bin `p` in one group. -/
theorem linearScan_uniform {M : Type} [AddCommMonoid M] (l : List (Pix × M))
    (p : Pix) (hl : ∀ q ∈ l, q.1 = p) (st : PixelAggregate M) :
    linearScan st l = addGroup st p l.length (l.map Prod.snd).sum := by
  induction l generalizing st with
  | nil => simp [linearScan, addGroup_zero]
  | cons q rest ih =>
      have hq : q.1 = p := hl q (by simp)
      have hrest : ∀ r ∈ rest, r.1 = p := fun r hr => hl r (by simp [hr])
      simp only [linearScan, List.foldl_cons] at *
      rw [ih hrest]
      show addGroup (addGroup st q.1 1 q.2) p rest.length _ = _
      rw [hq, addGroup_addGroup]
      simp [add_comm]

/-- The source's argsort/unique/split group-and-scatter pass agrees with a
naive one-point-at-a-time scan, on every input list. -/
theorem scatterRuns_eq_linearScan {M : Type} [AddCommMonoid M]
    (l : List (Pix × M)) (st : PixelAggregate M) :
    scatterRuns l st = linearScan st l := by
  suffices H : ∀ (n : Nat) (l : List (Pix × M)), l.length ≤ n →
      ∀ st : PixelAggregate M, scatterRuns l st = linearScan st l by
    exact H l.length l le_rfl st
  intro n
  induction n with
  | zero =>
      intro l hl st
      have : l = [] := List.eq_nil_of_length_eq_zero (Nat.le_zero.mp hl)
      subst this
      simp [scatterRuns, linearScan]
  | succ n ih =>
      intro l hl st
      match l with
      | [] => simp [scatterRuns, linearScan]
      | (p, v) :: rest =>
          have hlen : (rest.dropWhile (fun q => q.1 == p)).length ≤ n := by
            have h1 := length_dropWhile_le (fun q : Pix × M => q.1 == p) rest
            simp only [List.length_cons] at hl
            omega
          simp only [scatterRuns]
          rw [ih _ hlen]
          conv_rhs =>
            rw [show (p, v) :: rest =
                ((p, v) :: rest.takeWhile (fun q => q.1 == p)) ++
                  rest.dropWhile (fun q => q.1 == p) by
              rw [List.cons_append, List.takeWhile_append_dropWhile]]
          rw [linearScan_append]
          congr 1
          rw [linearScan_uniform ((p, v) :: rest.takeWhile (fun q => q.1 == p)) p
            (by
              intro q hq
              rcases List.mem_cons.mp hq with h | h
              · rw [h]
              · simpa using List.mem_takeWhile_imp h)]
          simp [add_comm]

/-- Closed form of one reduction batch: bin counts. -/
theorem reduceBatch_num {M : Type} [AddCommMonoid M] (st : PixelAggregate M)
    (batch : List (Pix × M)) (p : Pix) :
    (reduceBatch st batch).num p = st.num p + binCount batch p := by
  unfold reduceBatch
  rw [scatterRuns_eq_linearScan, linearScan_num]
  congr 1
  exact (List.mergeSort_perm batch _).countP_eq _

/-- Closed form of one reduction batch: bin value sums. -/
theorem reduceBatch_she {M : Type} [AddCommMonoid M] (st : PixelAggregate M)
    (batch : List (Pix × M)) (p : Pix) :
    (reduceBatch st batch).she p = st.she p + binSum batch p := by
  unfold reduceBatch
  rw [scatterRuns_eq_linearScan, linearScan_she]
  congr 1
  exact List.Perm.sum_eq
    (List.Perm.map Prod.snd (List.Perm.filter _ (List.mergeSort_perm batch _)))

theorem foldl_reduceBatch_num {M : Type} [AddCommMonoid M]
    (batches : List (List (Pix × M))) (st : PixelAggregate M) (p : Pix) :
    (batches.foldl reduceBatch st).num p = st.num p + binCount batches.flatten p := by
  induction batches generalizing st with
  | nil => simp [binCount]
  | cons b bs ih =>
      rw [List.foldl_cons, ih, reduceBatch_num]
      simp only [List.flatten_cons, binCount, List.countP_append]
      omega

theorem foldl_reduceBatch_she {M : Type} [AddCommMonoid M]
    (batches : List (List (Pix × M))) (st : PixelAggregate M) (p : Pix) :
    (batches.foldl reduceBatch st).she p = st.she p + binSum batches.flatten p := by
  induction batches generalizing st with
  | nil => simp [binSum]
  | cons b bs ih =>
      rw [List.foldl_cons, ih, reduceBatch_she]
      simp only [List.flatten_cons, binSum, List.filter_append, List.map_append,
        List.sum_append]
      rw [add_assoc]

theorem reduceStream_num {M : Type} [AddCommMonoid M]
    (batches : List (List (Pix × M))) (p : Pix) :
    (reduceStream M batches).num p = binCount batches.flatten p := by
  unfold reduceStream
  rw [foldl_reduceBatch_num]
  simp [PixelAggregate.empty]

theorem reduceStream_she {M : Type} [AddCommMonoid M]
    (batches : List (List (Pix × M))) (p : Pix) :
    (reduceStream M batches).she p = binSum batches.flatten p := by
  unfold reduceStream
  rw [foldl_reduceBatch_she]
  simp [PixelAggregate.empty]

/-- C2: the catalogue-to-pixel reduction (argsort, unique, split,
scatter-add of the simulation cell) yields per-bin (count, value-sum)
aggregates that are invariant under permutation of a batch, additive
under *any* split of a batch into two sub-batches reduced in sequence
versus reduced as one concatenated batch, and identical to a naive
linear scan adding each point to its bin one at a time. -/
theorem reduce_order_independent_additive {M : Type} [AddCommMonoid M]
    (st : PixelAggregate M) (b₁ b₂ : List (Pix × M)) (hperm : b₁.Perm b₂) :
    reduceBatch st b₁ = reduceBatch st b₂ ∧
    (∀ c₁ c₂ : List (Pix × M),
      reduceBatch st (c₁ ++ c₂) = reduceBatch (reduceBatch st c₁) c₂) ∧
    (∀ c : List (Pix × M), reduceBatch st c = linearScan st c) := by
  refine ⟨?_, ?_, ?_⟩
  · ext p
    · rw [reduceBatch_num, reduceBatch_num]
      congr 1
      exact hperm.countP_eq _
    · rw [reduceBatch_she, reduceBatch_she]
      congr 1
      exact List.Perm.sum_eq (List.Perm.map Prod.snd (List.Perm.filter _ hperm))
  · intro c₁ c₂
    ext p
    · rw [reduceBatch_num, reduceBatch_num, reduceBatch_num]
      simp only [binCount, List.countP_append]
      omega
    · rw [reduceBatch_she, reduceBatch_she, reduceBatch_she]
      simp only [binSum, List.filter_append, List.map_append, List.sum_append]
      rw [add_assoc]
  · intro c
    ext p
    · rw [reduceBatch_num, linearScan_num]
    · rw [reduceBatch_she, linearScan_she]

/-- Witness for C2: a concrete pair of permuted batches, plus the
additivity conjunct instantiated at a split whose two halves are *not*
permutations of each other, and the naive-scan conjunct at a concrete
batch. -/
theorem reduce_order_independent_additive_witness :
    ([((1 : Pix), (5 : ℚ)), (2, 3)]).Perm [((2 : Pix), (3 : ℚ)), (1, 5)] ∧
    reduceBatch (PixelAggregate.empty ℚ) [((1 : Pix), (5 : ℚ)), (2, 3)] =
      reduceBatch (PixelAggregate.empty ℚ) [((2 : Pix), (3 : ℚ)), (1, 5)] ∧
    reduceBatch (PixelAggregate.empty ℚ)
        ([((1 : Pix), (5 : ℚ))] ++ [((2 : Pix), (3 : ℚ)), (1, 7)]) =
      reduceBatch (reduceBatch (PixelAggregate.empty ℚ)
        [((1 : Pix), (5 : ℚ))]) [((2 : Pix), (3 : ℚ)), (1, 7)] ∧
    reduceBatch (PixelAggregate.empty ℚ) [((1 : Pix), (5 : ℚ)), (2, 3)] =
      linearScan (PixelAggregate.empty ℚ) [((1 : Pix), (5 : ℚ)), (2, 3)] :=
  ⟨by decide,
   (reduce_order_independent_additive (PixelAggregate.empty ℚ)
      [((1 : Pix), (5 : ℚ)), (2, 3)] [((2 : Pix), (3 : ℚ)), (1, 5)]
      (by decide)).1,
   (reduce_order_independent_additive (PixelAggregate.empty ℚ)
      [((1 : Pix), (5 : ℚ)), (2, 3)] [((2 : Pix), (3 : ℚ)), (1, 5)]
      (by decide)).2.1 [((1 : Pix), (5 : ℚ))] [((2 : Pix), (3 : ℚ)), (1, 7)],
   (reduce_order_independent_additive (PixelAggregate.empty ℚ)
      [((1 : Pix), (5 : ℚ)), (2, 3)] [((2 : Pix), (3 : ℚ)), (1, 5)]
      (by decide)).2.2 [((1 : Pix), (5 : ℚ)), (2, 3)]⟩

/-- C10: after any number of per-shell batches, the count map and the
shear-sum map are coupled: a pixel with zero accumulated count has a
shear sum of exactly zero. -/
theorem empty_bin_zero_shear {M : Type} [AddCommMonoid M]
    (batches : List (List (Pix × M))) (p : Pix)
    (h : (reduceStream M batches).num p = 0) :
    (reduceStream M batches).she p = 0 := by
  rw [reduceStream_num] at h
  rw [reduceStream_she]
  unfold binCount at h
  unfold binSum
  rw [List.countP_eq_zero] at h
  rw [List.filter_eq_nil_iff.mpr h]
  simp

/-- Witness for C10 at a concrete stream with an empty pixel. -/
theorem empty_bin_zero_shear_witness :
    (reduceStream ℚ [[((3 : Pix), (5 : ℚ))]]).num 7 = 0 ∧
    (reduceStream ℚ [[((3 : Pix), (5 : ℚ))]]).she 7 = 0 := by
  have h : (reduceStream ℚ [[((3 : Pix), (5 : ℚ))]]).num 7 = 0 := by
    rw [reduceStream_num]
    decide
  exact ⟨h, empty_bin_zero_shear _ _ h⟩

/-- C7 counterexample: with edges `[1, 2, 3]` the source's
`np.searchsorted(edges, 2)` (default `side='left'`) returns bin 1 — the
bin whose upper edge the point equals — whereas the claimed half-open
`coordinate < upper_edge` rule (a boundary point belongs to the next
bin) would return bin 2.  The code's binning is closed at the upper
edge, not open. -/
theorem boundary_bin_cex :
    searchsortedLeft [(1 : ℚ), 2, 3] 2 = 1 ∧
    specBinIndex [(1 : ℚ), 2, 3] 2 = 2 ∧
    searchsortedLeft [(1 : ℚ), 2, 3] 2 ≠ specBinIndex [(1 : ℚ), 2, 3] 2 := by
  refine ⟨by decide, by decide, by decide⟩

/-- C7 amended: on a strictly ascending edge list, a point exactly equal
to edge `k` is assigned bin index `k` by the source's `searchsorted`:
boundary points belong to the bin whose *upper* edge they equal (the
membership test is `coordinate ≤ upper_edge`), consistently for all
bins. -/
theorem boundary_bin_upper_closed {α : Type} [LinearOrder α] (a : List α)
    (hsort : a.Pairwise (· < ·)) (k : Nat) (hk : k < a.length) :
    searchsortedLeft a (a.get ⟨k, hk⟩) = k := by
  induction a generalizing k with
  | nil => simp at hk
  | cons x rest ih =>
      rcases List.pairwise_cons.mp hsort with ⟨hx, hrest⟩
      match k with
      | 0 =>
          simp only [searchsortedLeft, List.get, List.countP_cons]
          rw [List.countP_eq_zero.mpr]
          · simp
          · intro q hq
            simpa using not_lt.mpr (le_of_lt (hx q hq))
      | k + 1 =>
          have hk' : k < rest.length := by simpa using hk
          have hmem : rest.get ⟨k, hk'⟩ ∈ rest := List.get_mem rest k hk'
          simp only [searchsortedLeft, List.get, List.countP_cons]
          rw [if_pos (by simpa using hx _ hmem)]
          have := ih hrest k hk'
          simp only [searchsortedLeft] at this
          omega

/-- Witness for the amended C7 at concrete edges `[1, 2, 3]`, boundary
point `2` (edge index 1). -/
theorem boundary_bin_upper_closed_witness :
    ([(1 : ℚ), 2, 3]).Pairwise (· < ·) ∧
    searchsortedLeft [(1 : ℚ), 2, 3] (([(1 : ℚ), 2, 3]).get ⟨1, by decide⟩) = 1 :=
  ⟨by decide, boundary_bin_upper_closed [(1 : ℚ), 2, 3] (by decide) 1 (by decide)⟩

theorem countP_lt_length {α : Type} (p : α → Bool) (a : List α) (x : α)
    (hx : x ∈ a) (hpx : ¬p x = true) : a.countP p < a.length := by
  have hlen := List.length_eq_countP_add_countP p a
  have hpos : 0 < a.countP (fun y => decide ¬p y = true) :=
    List.countP_pos_iff.mpr ⟨x, hx, by simpa using hpx⟩
  omega

theorem zmax_mem_cubeEdges (zmax : ℝ) : zmax ∈ cubeEdges zmax := by
  refine List.mem_map.mpr ⟨19, by simp, ?_⟩
  unfold zcub
  push_cast
  ring

theorem cubeEdges_length (zmax : ℝ) : (cubeEdges zmax).length = 20 := by
  simp [cubeEdges]

/-- Any coordinate not exceeding the outermost edge gets a bin index in
`0..19`, so `cube[i, j, k] += c` stays in bounds on the `20³` cube. -/
theorem searchsorted_cube_lt (zmax v : ℝ) (hv : v ≤ zmax) :
    searchsortedLeft (cubeEdges zmax) v < 20 := by
  have h := countP_lt_length (fun x : ℝ => decide (x < v)) (cubeEdges zmax) zmax
    (zmax_mem_cubeEdges zmax) (by simpa using not_lt.mpr hv)
  rw [cubeEdges_length] at h
  exact h

/-- C9: a galaxy with sampled redshift `0 ≤ gal_z ≤ zb[-1]` has all three
Cartesian coordinates within `[-zb[-1], zb[-1]]`, so each of the three
`searchsorted` bin indices over the 21-edge grid `zcub` is at most 19 and
the scatter `cube[i, j, k] += c` never indexes out of bounds. -/
theorem cube_binning_in_bounds (zmax gz lon lat : ℝ) (h0 : 0 ≤ gz)
    (h1 : gz ≤ zmax) :
    (|galCoord1 gz lon lat| ≤ zmax ∧ |galCoord2 gz lon lat| ≤ zmax ∧
      |galCoord3 gz lat| ≤ zmax) ∧
    searchsortedLeft (cubeEdges zmax) (galCoord1 gz lon lat) < 20 ∧
    searchsortedLeft (cubeEdges zmax) (galCoord2 gz lon lat) < 20 ∧
    searchsortedLeft (cubeEdges zmax) (galCoord3 gz lat) < 20 := by
  have habs : |gz| = gz := abs_of_nonneg h0
  have hc1 := Real.abs_cos_le_one (deg2rad lon)
  have hc2 := Real.abs_cos_le_one (deg2rad lat)
  have hs1 := Real.abs_sin_le_one (deg2rad lon)
  have hs2 := Real.abs_sin_le_one (deg2rad lat)
  have hb1 : |galCoord1 gz lon lat| ≤ zmax := by
    unfold galCoord1
    rw [abs_mul, abs_mul, habs]
    have t1 : gz * |Real.cos (deg2rad lon)| ≤ gz := mul_le_of_le_one_right h0 hc1
    have t2 : gz * |Real.cos (deg2rad lon)| * |Real.cos (deg2rad lat)| ≤
        gz * |Real.cos (deg2rad lon)| :=
      mul_le_of_le_one_right (mul_nonneg h0 (abs_nonneg _)) hc2
    linarith
  have hb2 : |galCoord2 gz lon lat| ≤ zmax := by
    unfold galCoord2
    rw [abs_mul, abs_mul, habs]
    have t1 : gz * |Real.sin (deg2rad lon)| ≤ gz := mul_le_of_le_one_right h0 hs1
    have t2 : gz * |Real.sin (deg2rad lon)| * |Real.cos (deg2rad lat)| ≤
        gz * |Real.sin (deg2rad lon)| :=
      mul_le_of_le_one_right (mul_nonneg h0 (abs_nonneg _)) hc2
    linarith
  have hb3 : |galCoord3 gz lat| ≤ zmax := by
    unfold galCoord3
    rw [abs_mul, habs]
    have t1 : gz * |Real.sin (deg2rad lat)| ≤ gz := mul_le_of_le_one_right h0 hs2
    linarith
  exact ⟨⟨hb1, hb2, hb3⟩,
    searchsorted_cube_lt _ _ (le_of_abs_le hb1),
    searchsorted_cube_lt _ _ (le_of_abs_le hb2),
    searchsorted_cube_lt _ _ (le_of_abs_le hb3)⟩

/-- Witness for C9 at `zmax = 1`, `gal_z = 0`, `lon = lat = 0`. -/
theorem cube_binning_in_bounds_witness :
    ((0 : ℝ) ≤ 0 ∧ (0 : ℝ) ≤ 1) ∧
    ((|galCoord1 0 0 0| ≤ 1 ∧ |galCoord2 0 0 0| ≤ 1 ∧ |galCoord3 0 0| ≤ 1) ∧
      searchsortedLeft (cubeEdges 1) (galCoord1 0 0 0) < 20 ∧
      searchsortedLeft (cubeEdges 1) (galCoord2 0 0 0) < 20 ∧
      searchsortedLeft (cubeEdges 1) (galCoord3 0 0) < 20) :=
  ⟨⟨le_refl 0, by norm_num⟩,
    cube_binning_in_bounds 1 0 0 0 (le_refl 0) (by norm_num)⟩

/-! #### Convergence accumulator: incremental = direct recomputation -/

theorem foldl_addStep_s0 (L : List (Shell × (Pix → ℚ))) (st : ConvAcc) (p : Pix) :
    (L.foldl addStep st).s0 p = st.s0 p + (L.map (fun sd => sd.1.w * sd.2 p)).sum := by
  induction L generalizing st with
  | nil => simp
  | cons a t ih =>
      rw [List.foldl_cons, ih]
      simp [addStep, addWindow, add_assoc]

theorem foldl_addStep_s1 (L : List (Shell × (Pix → ℚ))) (st : ConvAcc) (p : Pix) :
    (L.foldl addStep st).s1 p =
      st.s1 p + (L.map (fun sd => sd.1.w * sd.2 p * sd.1.x)).sum := by
  induction L generalizing st with
  | nil => simp
  | cons a t ih =>
      rw [List.foldl_cons, ih]
      simp [addStep, addWindow, add_assoc]

theorem foldl_addStep_xs (L : List (Shell × (Pix → ℚ))) (st : ConvAcc) :
    (L.foldl addStep st).xs = (L.map (fun sd => sd.1.x)).getLastD st.xs := by
  induction L generalizing st with
  | nil => simp
  | cons a t ih =>
      rw [List.foldl_cons, ih, List.map_cons, List.getLastD_cons]
      rfl

theorem runAcc_xs_of_getLast {L : List (Shell × (Pix → ℚ))}
    {sdk : Shell × (Pix → ℚ)} (hL : L.getLast? = some sdk) :
    (runAcc L).xs = sdk.1.x := by
  unfold runAcc
  rw [foldl_addStep_xs, List.getLastD_eq_getLast?, List.getLast?_map, hL]
  rfl

/-- Splitting the Born sum: `Σ aⱼ (x_k - xⱼ)/x_k = Σ aⱼ - (Σ aⱼ xⱼ)/x_k`. -/
theorem born_sum_split (xk : ℚ) (hk : xk ≠ 0) (L : List (ℚ × ℚ)) :
    (L.map (fun q => q.1 * ((xk - q.2) / xk))).sum =
      (L.map Prod.fst).sum - (L.map (fun q => q.1 * q.2)).sum / xk := by
  induction L with
  | nil => simp
  | cons a t ih =>
      simp only [List.map_cons, List.sum_cons, ih]
      field_simp
      ring

/-- C1: fed any ordered sequence of shells, the incremental accumulator
(`add_window` shell by shell, maintaining two running totals) yields,
after every prefix of the sequence, exactly the cumulative convergence
map of a direct from-scratch recomputation of the discretized Born
line-of-sight integral over that prefix (exact rational arithmetic
standing in for floating point). -/
theorem convergence_accumulator_correct (shells : List (Shell × (Pix → ℚ)))
    (hpos : ∀ sd ∈ shells, 0 < sd.1.x)
    (_hord : shells.Pairwise (fun a b => a.1.x < b.1.x)) (n : Nat) :
    (runAcc (shells.take n)).kappa = bornDirect (shells.take n) := by
  have hsub : ∀ sd ∈ shells.take n, sd ∈ shells :=
    fun sd h => List.take_subset n shells h
  cases hL : (shells.take n).getLast? with
  | none =>
      have hnil : shells.take n = [] := List.getLast?_eq_none_iff.mp hL
      rw [hnil]
      funext p
      simp [runAcc, ConvAcc.init, ConvAcc.kappa, bornDirect]
  | some sdk =>
      obtain ⟨shk, dk⟩ := sdk
      have hmem : (shk, dk) ∈ shells.take n := List.mem_of_mem_getLast? hL
      have hxk : 0 < shk.x := hpos _ (hsub _ hmem)
      have hxs : (runAcc (shells.take n)).xs = shk.x := runAcc_xs_of_getLast hL
      funext p
      unfold ConvAcc.kappa
      rw [hxs]
      simp only [bornDirect, hL]
      unfold runAcc
      rw [foldl_addStep_s0, foldl_addStep_s1]
      simp only [ConvAcc.init]
      have hsplit := born_sum_split shk.x (ne_of_gt hxk)
        ((shells.take n).map (fun sd => (sd.1.w * sd.2 p, sd.1.x)))
      simp only [List.map_map, Function.comp_def] at hsplit
      simp only [lensEfficiency]
      rw [hsplit, zero_add, zero_add]

/-- Witness for C1 on a concrete two-shell stream, at the full prefix. -/
theorem convergence_accumulator_correct_witness :
    (∀ sd ∈ demoShells, 0 < sd.1.x) ∧
    demoShells.Pairwise (fun a b => a.1.x < b.1.x) ∧
    (runAcc (demoShells.take 2)).kappa = bornDirect (demoShells.take 2) :=
  ⟨by decide, by decide,
    convergence_accumulator_correct demoShells (by decide) (by decide) 2⟩

/-- C8: three shells of window weight `1.0` at increasing positive
distances with constant contrast maps `0.1`, `0.2`, `0.3`, fed in order,
give a cumulative convergence that is uniform over pixels after every
`add_window` call, with strictly increasing magnitude across the three
calls. -/
theorem scenario_uniform_strictly_increasing (x₁ x₂ x₃ : ℚ) (h1 : 0 < x₁)
    (h12 : x₁ < x₂) (h23 : x₂ < x₃) :
    (∀ k, ∀ p q : Pix,
        (runAcc ((scenarioShells x₁ x₂ x₃).take k)).kappa p =
          (runAcc ((scenarioShells x₁ x₂ x₃).take k)).kappa q) ∧
    |(runAcc ((scenarioShells x₁ x₂ x₃).take 1)).kappa 0| <
      |(runAcc ((scenarioShells x₁ x₂ x₃).take 2)).kappa 0| ∧
    |(runAcc ((scenarioShells x₁ x₂ x₃).take 2)).kappa 0| <
      |(runAcc ((scenarioShells x₁ x₂ x₃).take 3)).kappa 0| := by
  have hx2 : 0 < x₂ := lt_trans h1 h12
  have hx3 : 0 < x₃ := lt_trans hx2 h23
  have e1 : (runAcc ((scenarioShells x₁ x₂ x₃).take 1)).kappa 0 = 0 := by
    simp [scenarioShells, runAcc, addStep, addWindow, ConvAcc.init, ConvAcc.kappa]
    field_simp
  have e2 : (runAcc ((scenarioShells x₁ x₂ x₃).take 2)).kappa 0 =
      (x₂ - x₁) / (10 * x₂) := by
    simp [scenarioShells, runAcc, addStep, addWindow, ConvAcc.init, ConvAcc.kappa]
    field_simp
    ring
  have e3 : (runAcc ((scenarioShells x₁ x₂ x₃).take 3)).kappa 0 =
      (3 * x₃ - x₁ - 2 * x₂) / (10 * x₃) := by
    simp [scenarioShells, runAcc, addStep, addWindow, ConvAcc.init, ConvAcc.kappa]
    field_simp
    ring
  have p2 : 0 < (x₂ - x₁) / (10 * x₂) := div_pos (by linarith) (by linarith)
  have p3 : 0 < (3 * x₃ - x₁ - 2 * x₂) / (10 * x₃) :=
    div_pos (by linarith) (by linarith)
  refine ⟨?_, ?_, ?_⟩
  · intro k p q
    match k with
    | 0 => rfl
    | 1 => rfl
    | 2 => rfl
    | n + 3 =>
        rw [List.take_of_length_le (by simp [scenarioShells])]
        rfl
  · rw [e1, e2, abs_of_pos p2, abs_zero]
    exact p2
  · rw [e2, e3, abs_of_pos p2, abs_of_pos p3]
    rw [div_lt_div_iff₀ (by linarith) (by linarith)]
    nlinarith [mul_pos (sub_pos.mpr h23) (by linarith : (0 : ℚ) < 2 * x₂ + x₁)]

/-- Witness for C8 at distances `1 < 2 < 3`. -/
theorem scenario_uniform_strictly_increasing_witness :
    ((0 : ℚ) < 1 ∧ (1 : ℚ) < 2 ∧ (2 : ℚ) < 3) ∧
    ((∀ k, ∀ p q : Pix,
        (runAcc ((scenarioShells 1 2 3).take k)).kappa p =
          (runAcc ((scenarioShells 1 2 3).take k)).kappa q) ∧
      |(runAcc ((scenarioShells 1 2 3).take 1)).kappa 0| <
        |(runAcc ((scenarioShells 1 2 3).take 2)).kappa 0| ∧
      |(runAcc ((scenarioShells 1 2 3).take 2)).kappa 0| <
        |(runAcc ((scenarioShells 1 2 3).take 3)).kappa 0|) :=
  ⟨⟨by norm_num, by norm_num, by norm_num⟩,
    scenario_uniform_strictly_increasing 1 2 3 (by norm_num) (by norm_num)
      (by norm_num)⟩

/-! #### Shear transform, shot noise, mixing matrix, debiasing -/

/-- C3: `shear_from_convergence` scales each spherical-harmonic mode by
the fixed factor `f(ℓ) = sqrt[(ℓ+2)(ℓ+1)ℓ(ℓ-1)]/[ℓ(ℓ+1)]`, and the
resulting shear coefficients at `ℓ = 0` and `ℓ = 1` are exactly zero
(the numerator vanishes there, since the factors `ℓ` and `ℓ-1` are
zero). -/
theorem shear_zero_modes (alm : Nat → ℝ) :
    (∀ l, shearAlm alm l = shearFactor l * alm l) ∧
    shearAlm alm 0 = 0 ∧ shearAlm alm 1 = 0 := by
  refine ⟨fun l => rfl, ?_, ?_⟩
  · have h : shearFactor 0 = 0 := by simp [shearFactor]
    simp [shearAlm, h]
  · have h : shearFactor 1 = 0 := by simp [shearFactor]
    simp [shearAlm, h]

/-- The square of the spec-modelled shear mode factor is exactly the
source's `fl = (l+2)*(l+1)*l*(l-1)/np.clip(l**2*(l+1)**2, 1, None)`
power-spectrum factor from the analysis cell, at every multipole. -/
theorem shearFactor_sq_eq_fl (l : Nat) : (shearFactor l) ^ 2 = (fl l : ℝ) := by
  match l with
  | 0 => simp [shearFactor, fl]
  | 1 => norm_num [shearFactor, fl]
  | n + 2 =>
      have hn : (0 : ℝ) ≤ (n : ℝ) := Nat.cast_nonneg n
      have hnum : 0 ≤ (((n : ℝ) + 2) + 2) * (((n : ℝ) + 2) + 1) *
          ((n : ℝ) + 2) * (((n : ℝ) + 2) - 1) := by
        apply mul_nonneg
        apply mul_nonneg
        apply mul_nonneg
        all_goals linarith
      have hmax : max (((n + 2 : Nat) : ℚ) ^ 2 * (((n + 2 : Nat) : ℚ) + 1) ^ 2) 1 =
          ((n + 2 : Nat) : ℚ) ^ 2 * (((n + 2 : Nat) : ℚ) + 1) ^ 2 := by
        apply max_eq_left
        push_cast
        nlinarith [Nat.cast_nonneg (α := ℚ) n]
      have hq : ((fl (n + 2) : ℚ) : ℝ) =
          ((((n : ℝ) + 2) + 2) * (((n : ℝ) + 2) + 1) * ((n : ℝ) + 2) *
            (((n : ℝ) + 2) - 1)) / (((n : ℝ) + 2) ^ 2 * (((n : ℝ) + 2) + 1) ^ 2) := by
        rw [fl, hmax]
        push_cast
        ring
      rw [hq]
      unfold shearFactor
      push_cast
      rw [div_pow, Real.sq_sqrt hnum]
      ring

/-- C4: with the observed spectrum equal to the theory spectrum, a zero
shot-noise estimate and an identity mixing matrix, the debiasing step
(`observed - noise` elementwise; `mixing @ theory`) returns the theory
spectrum unchanged on both sides of the comparison. -/
theorem debias_identity {n : Nat} (obs noise th : Fin n → ℝ)
    (m : Matrix (Fin n) (Fin n) ℝ) (hobs : obs = th)
    (hnoise : noise = fun _ => 0) (hm : m = 1) :
    debiasObserved obs noise = th ∧ mixTheory m th = th := by
  subst hobs hnoise hm
  constructor
  · funext l
    simp [debiasObserved]
  · unfold mixTheory
    rw [Matrix.one_mulVec]

/-- Witness for C4 at `n = 3`, theory spectrum `(1, 2, 3)`. -/
theorem debias_identity_witness :
    debiasObserved (n := 3) ![1, 2, 3] (fun _ => 0) = ![1, 2, 3] ∧
    mixTheory (1 : Matrix (Fin 3) (Fin 3) ℝ) ![1, 2, 3] = ![1, 2, 3] :=
  debias_identity ![1, 2, 3] (fun _ => 0) ![1, 2, 3] 1 rfl rfl rfl

/-- C5: the shot-noise estimate `nl` vanishes exactly at `ℓ = 0, 1`
(the `(l >= 2)` mask), and after `mm[:2, :] = mm[:, :2] = 0` every
mixing-matrix entry in a row or column with `ℓ < 2` is exactly zero. -/
theorem noise_mixing_low_ell_zero :
    nl 0 = 0 ∧ nl 1 = 0 ∧ ∀ i j : Nat, i < 2 ∨ j < 2 → mm i j = 0 := by
  refine ⟨by simp [nl], by simp [nl], ?_⟩
  intro i j h
  by_cases hj : j < 2
  · simp [mm, hj]
  · rcases h with hi | hj2
    · simp [mm, mm1, hj, hi]
    · exact absurd hj2 hj

/-- Witness for C5 at the concrete entry `(i, j) = (0, 5)`. -/
theorem noise_mixing_low_ell_zero_witness :
    nl 0 = 0 ∧ ((0 < 2 ∨ 5 < 2) ∧ mm 0 5 = 0) :=
  ⟨noise_mixing_low_ell_zero.1,
    Or.inl (by norm_num),
    noise_mixing_low_ell_zero.2.2 0 5 (Or.inl (by norm_num))⟩

theorem nbar_pos : 0 < nbar := by
  have hpi := Real.pi_pos
  unfold nbar arcmin2Sphere n_arcmin2 npix nside
  positivity

/-- C6 counterexample: the source has no signaled division-by-zero on
empty bins — normalisation divides by the constant `nbar` (which is
nonzero), never by the per-bin accumulated count, so reading the
normalized value of a bin with zero accumulated count silently yields
the definite value `0`, whereas the claimed contract (`specEmptyBinRead`,
stated from the spec) signals `none` there. -/
theorem empty_bin_read_cex :
    specEmptyBinRead 0 0 = none ∧
    normalizedNum (fun _ => 0) 7 = 0 ∧
    nbar ≠ 0 := by
  refine ⟨rfl, ?_, ne_of_gt nbar_pos⟩
  simp [normalizedNum]

/-- C6 amended: reading the normalized per-pixel value of a bin with zero
accumulated count is a total, silent operation in the code: the maps are
divided by the constant expected count `nbar > 0` (never by the per-bin
count), an empty bin normalizes to exactly `0`, and no division-by-zero
condition is signaled. -/
theorem empty_bin_normalizes_to_zero (num : Pix → Nat) (p : Pix)
    (h : num p = 0) :
    normalizedNum num p = 0 ∧ nbar ≠ 0 := by
  refine ⟨?_, ne_of_gt nbar_pos⟩
  simp [normalizedNum, h]

/-- Witness for the amended C6 at the all-empty count map, pixel 7. -/
theorem empty_bin_normalizes_to_zero_witness :
    (fun _ : Pix => (0 : Nat)) 7 = 0 ∧
    (normalizedNum (fun _ => 0) 7 = 0 ∧ nbar ≠ 0) :=
  ⟨rfl, empty_bin_normalizes_to_zero (fun _ => 0) 7 rfl⟩

end GlassNb
